import Mathlib

/-!
Verification of the quantum backtracking tree engine of the Qrisp repository
(`src/qrisp/quantum_backtracking/backtracking_tree.py`).

The development shallowly embeds the classical content of the module:

* the node encoding written by `QuantumBacktrackingTree.init_node` /
  `Subtree.init_node` and its inverse `path_decoder` (with Python slice
  semantics for negative stop indices);
* the `Subtree` constructor and the `subtree` methods, modelled as an
  inductive `QBTree` with `Except`-valued construction (a Python exception
  becomes `Except.error`);
* the hybrid recursive search `find_solution`.  The quantum parts
  (`init_node` + `estimate_phase` + `multi_measurement`) are a blocking call
  into the external simulator, so they enter the model as an oracle
  `measure : QBTree -> List (Outcome × ℚ)` returning the joint measurement
  dictionary in its iteration order; probabilities are embedded as rationals
  (the thresholds 0.25 and 0.375 are exactly representable floats, so the
  comparisons agree).  Python's unbounded recursion is modelled with a fuel
  parameter; the in-place mutation of `traversed_nodes` is modelled by
  threading the list through results;
* `quantum_step` as an instruction trace (which diffusers are invoked, in
  which order, with which arguments);
* the amplitude-level semantics of `psi_prep` and `qstep_diffuser` on the
  computational basis of the registers `h`, `branch_qa`, `branch_workspace`
  (namespace `QWalk`), on which the diffuser involution is proved.
-/

/-- Python list slicing `xs[:l]` for an integer stop index `l`:
nonnegative stops truncate from the front, negative stops drop `-l`
elements from the end, both clamped to the list bounds. -/
def pySlice {α : Type} (xs : List α) (l : Int) : List α :=
  if 0 ≤ l then xs.take l.toNat else xs.take (xs.length - (-l).toNat)

/-- `QuantumBacktrackingTree.path_decoder`: `l = self.max_depth - h`,
`return list(branch_qa[:l][::-1])`.  `h` is a measured register value (a
nonnegative integer); the subtraction is Python integer subtraction, hence
the `Int` slice. -/
def path_decoder (max_depth h : Nat) (branch_qa : List Nat) : List Nat :=
  (pySlice branch_qa ((max_depth : Int) - (h : Int))).reverse

/-- Register state written by `QuantumBacktrackingTree.init_node(path)` on a
freshly allocated tree: `h := max_depth - len(path)` and
`branch_qa[:len(path)] := path[::-1]`, the remaining entries keeping their
initial value `0`.  The pair is the basis-state label of `(h, branch_qa)`. -/
def init_node_state (max_depth : Nat) (path : List Nat) : Nat × List Nat :=
  (max_depth - path.length,
   path.reverse ++ List.replicate (max_depth - path.length) 0)

/-- Register state written by `Subtree.init_node(path)`: the subtree has
`max_depth = original_max_depth - len(root_path)`, writes
`h := max_depth - len(path)`, prepends the root path
(`path = self.root_path + path`) and assigns
`branch_qa[:len(path)] := path[::-1]` on the concatenation of its own
`branch_qa` (length `max_depth`) with the `embedding_array`
(length `len(root_path)`). -/
def subtree_init_node_state (original_max_depth : Nat)
    (root_path path : List Nat) : Nat × List Nat :=
  let max_depth := original_max_depth - root_path.length
  let full := root_path ++ path
  (max_depth - path.length,
   full.reverse ++ List.replicate (max_depth + root_path.length - full.length) 0)

/-- A backtracking tree object: either an originally constructed
`QuantumBacktrackingTree` (characterised by its `max_depth`) or a `Subtree`,
which stores its `original_tree` (the `parent_tree` constructor argument)
and its `root_path`. -/
inductive QBTree where
  | base (max_depth : Nat)
  | sub (original : QBTree) (root_path : List Nat)
deriving DecidableEq, Repr

/-- `max_depth` attribute: `Subtree.__init__` forwards
`parent_tree.max_depth - len(root_path)` to the base constructor. -/
def QBTree.maxDepth : QBTree → Nat
  | .base n => n
  | .sub orig rp => orig.maxDepth - rp.length

/-- `original_tree` attribute (only a `Subtree` has one). -/
def QBTree.original_tree : QBTree → Option QBTree
  | .base _ => none
  | .sub orig _ => some orig

/-- The path of the current root: `tree.root_path` for a `Subtree`, `[]`
otherwise (as computed at the top of `find_solution`). -/
def rootPathOf : QBTree → List Nat
  | .base _ => []
  | .sub _ rp => rp

/-- Error message of the `Subtree.__init__` precondition check. -/
def subtreeErrMsg : String :=
  "Tried to initialise subtree with root path longer than maximum depth"

/-- `Subtree.__init__(parent_tree, root_path)`: raises when
`len(root_path) > parent_tree.max_depth`, otherwise constructs the subtree
object. -/
def subtree_mk (parent : QBTree) (root_path : List Nat) : Except String QBTree :=
  if root_path.length > parent.maxDepth then .error subtreeErrMsg
  else .ok (.sub parent root_path)

/-- The `subtree` method: `QuantumBacktrackingTree.subtree(new_root)` is
`Subtree(self, new_root)`; `Subtree.subtree(path)` delegates to
`self.original_tree.subtree(self.root_path + path)`. -/
def QBTree.subtree : QBTree → List Nat → Except String QBTree
  | .base n, p => subtree_mk (.base n) p
  | .sub orig rp, p => orig.subtree (rp ++ p)

/-- Instruction trace of circuit-synthesis calls relevant to
`quantum_step`: one entry per `qstep_diffuser(even, ctrl)` invocation. -/
inductive Instr where
  | diffuser (even : Bool) (ctrl : List Nat)
deriving DecidableEq, Repr

/-- `QuantumBacktrackingTree.quantum_step(ctrl)`:
`self.qstep_diffuser(even = self.max_depth % 2, ctrl = ctrl)` followed by
`self.qstep_diffuser(even = not self.max_depth % 2, ctrl = ctrl)` (Python
truthiness: the int `max_depth % 2` is truthy iff it is nonzero). -/
def quantum_step (max_depth : Nat) (ctrl : List Nat) : List Instr :=
  [.diffuser (decide (max_depth % 2 ≠ 0)) ctrl,
   .diffuser (decide (max_depth % 2 = 0)) ctrl]

/-- A sampled joint outcome `(qpe_res, tree.h, tree.branch_qa)` of the
`multi_measurement` call in `find_solution`. -/
abbrev Outcome := Nat × Nat × List Nat

/-- The entries of the measurement dictionary whose `qpe_res` component is
`0` (the `k[0] == 0` test in the loop computing `s` and `new_branches`). -/
def zero_entries (mes : List (Outcome × ℚ)) : List (Outcome × ℚ) :=
  mes.filter (fun kv => kv.1.1 = 0)

/-- `s`: the total sampled probability mass of outcomes with
phase-estimation value `0`. -/
def zero_mass (mes : List (Outcome × ℚ)) : ℚ :=
  (zero_entries mes).foldl (fun acc kv => acc + kv.2) 0

/-- `new_branches`: the outcomes with phase-estimation value `0`, in
dictionary iteration order. -/
def zero_branches (mes : List (Outcome × ℚ)) : List Outcome :=
  (zero_entries mes).map Prod.fst

/-- `new_branches.sort(key = lambda x : x[1])`: Python's sort is stable, as
is insertion sort, so the two agree elementwise. -/
def sortByH (branches : List Outcome) : List Outcome :=
  List.insertionSort (fun a b => a.2.1 ≤ b.2.1) branches

instance : IsTotal Outcome (fun a b => a.2.1 ≤ b.2.1) :=
  ⟨fun _ _ => Nat.le_total _ _⟩

instance : IsTrans Outcome (fun a b => a.2.1 ≤ b.2.1) :=
  ⟨fun _ _ _ => Nat.le_trans⟩

/-- Error message raised by `find_solution` on insufficient precision. -/
def insufficientMsg : String :=
  "Executed find solution method of quantum backtracking algorithm with insufficient precision"

/-- Model artefact: Python recursion has no fuel; the claims are stated at
nonzero fuel, where this branch is never taken. -/
def fuelMsg : String := "model recursion fuel exhausted"

/-- The `for b in new_branches: ... else: raise` loop of `find_solution`.
`rec` is the recursive call on the generated subtree (receiving and
returning the shared `traversed_nodes` list), `t` the current tree, `path`
its root path.  Skipped candidates (`tuple(path + new_path) in
traversed_nodes or len(new_path) == 0`) are passed over; a `None`
sub-result appends `path + new_path` to `traversed_nodes`; a non-`None`
sub-result breaks with `path + new_path + sub_sol`; loop exhaustion raises
the insufficient-precision error. -/
def findSolLoop
    (rec : QBTree → List (List Nat) → Except String (Option (List Nat) × List (List Nat)))
    (t : QBTree) (path : List Nat) :
    List Outcome → List (List Nat) → Except String (Option (List Nat) × List (List Nat))
  | [], _ => .error insufficientMsg
  | b :: rest, traversed =>
    let newPath := path_decoder t.maxDepth b.2.1 b.2.2
    if path ++ newPath ∈ traversed ∨ newPath = [] then
      findSolLoop rec t path rest traversed
    else
      match t.subtree newPath with
      | .error e => .error e
      | .ok st =>
        match rec st traversed with
        | .error e => .error e
        | .ok (some subSol, trav2) => .ok (some (path ++ newPath ++ subSol), trav2)
        | .ok (none, trav2) => findSolLoop rec t path rest (trav2 ++ [path ++ newPath])

/-- The recursive body of `find_solution(tree, precision, cl_accept,
traversed_nodes, measurement_kwargs)`.  The quantum pipeline
`tree.init_node([]); qpe_res = tree.estimate_phase(precision); mes_res =
multi_measurement([qpe_res, tree.h, tree.branch_qa], **measurement_kwargs)`
is the oracle `measure` (it depends only on the tree object; `precision`
and the measurement kwargs are captured inside it).  The result carries the
final contents of the mutable `traversed_nodes` list. -/
def findSolutionAux (measure : QBTree → List (Outcome × ℚ))
    (clAccept : List Nat → Bool) :
    Nat → QBTree → List (List Nat) → Except String (Option (List Nat) × List (List Nat))
  | 0, _, _ => .error fuelMsg
  | fuel + 1, t, traversed =>
    let path := rootPathOf t
    if clAccept path then .ok (some [], traversed)
    else if t.maxDepth = 0 then .ok (none, traversed)
    else
      let mes := measure t
      if zero_mass mes ≤ 1/4 then .ok (none, traversed)
      else if zero_mass mes ≤ 3/8 then .error insufficientMsg
      else
        findSolLoop (findSolutionAux measure clAccept fuel) t path
          (sortByH (zero_branches mes)) traversed

/-- `tree.copy()` is `Subtree(self, [])`; the default `cl_accept` copies
`tree.original_tree` when `tree` is a `Subtree` and `tree` itself
otherwise. -/
def default_copy_target : QBTree → QBTree
  | .base n => .sub (.base n) []
  | .sub orig _ => .sub orig []

/-- The `max_depth` of the parent of the copy produced inside the default
`cl_accept` (the copy is a `Subtree` with empty root path, so its own
`max_depth` and the total length of its `branch_qa` both equal this). -/
def copy_orig_depth : QBTree → Nat
  | .base n => n
  | .sub orig _ => orig.maxDepth

/-- The default classical accept function built by `find_solution` when
`cl_accept is None`: copy the (original) tree, `copied_tree.init_node(path)`,
evaluate `copied_tree.accept()` on the simulator and compare the
measurement distribution with `{True : 1}`.  `acceptMeas` is the simulation
oracle: given the tree object the predicate is evaluated on and the
register state prepared by `init_node` (the copy is a `Subtree` with empty
root path, hence `subtree_init_node_state`), it returns the measurement
distribution of the accept `QuantumBool`. -/
def default_cl_accept
    (acceptMeas : QBTree → Nat × List Nat → List (Bool × ℚ))
    (tree : QBTree) (path : List Nat) : Bool :=
  acceptMeas (default_copy_target tree)
    (subtree_init_node_state (copy_orig_depth tree) [] path) = [(true, 1)]

/-- Entry point `find_solution(tree, precision, cl_accept = None, ...)`:
when no classical accept function is supplied the default one is
constructed from the tree; `traversed_nodes` starts as `[]`. -/
def find_solution_top (measure : QBTree → List (Outcome × ℚ))
    (acceptMeas : QBTree → Nat × List Nat → List (Bool × ℚ))
    (clAcceptOpt : Option (List Nat → Bool)) (fuel : Nat) (t : QBTree) :
    Except String (Option (List Nat) × List (List Nat)) :=
  let clAccept := clAcceptOpt.getD (default_cl_accept acceptMeas t)
  findSolutionAux measure clAccept fuel t []

namespace QWalk

/-!
Amplitude-level semantics of `psi_prep` and `qstep_diffuser` on the
computational basis of the tree registers.

A basis state is a value of the height register `h` (`k + 1` qubits, the
source allocates `ceil(log2(max_depth + 2)) >= 1` qubits) together with the
contents of the `max_depth` branch registers and the workspace register.
`branch_qa[i]` is `reg i` for `i < n` and `branch_workspace` is `reg n`;
each branch symbol is a `w`-qubit register represented by its bit vector.
Keeping `branch_qa` and the workspace in one vector makes the cyclic shift
`cyclic_shift(list(branch_qa) + [branch_workspace])` a rotation of the
index set.  A quantum state is its amplitude function on basis states;
gates act on amplitude functions.  Caller-supplied `accept`/`reject`
predicates are boolean observables on basis states.
-/

/-- Basis state of the registers `h` (value `hval`), `branch_qa`
(`reg 0 .. reg (n-1)`) and `branch_workspace` (`reg n`). -/
@[ext]
structure QState (k n w : Nat) where
  hval : Fin (2 ^ (k + 1))
  reg : Fin (n + 1) → Fin w → Bool
deriving DecidableEq

/-- Amplitude functions: a quantum state of the tree registers. -/
abbrev V (k n w : Nat) := QState k n w → ℂ

variable {k n w : Nat}

/-- The oddity qubit `h.significant(0)`: the least significant bit of the
height register. -/
def lsbTrue (s : QState k n w) : Bool := decide (s.hval.val % 2 = 1)

/-- The value carried by the upper qubits `h[1:]` of the height register. -/
def upperVal (s : QState k n w) : Nat := s.hval.val / 2

/-- The basis state with the oddity qubit flipped (value `hval xor 1`,
written arithmetically). -/
def flipLSBState (s : QState k n w) : QState k n w :=
  { s with hval := ⟨if s.hval.val % 2 = 0 then s.hval.val + 1 else s.hval.val - 1, by
      have h2 : 2 ^ (k + 1) = 2 * 2 ^ k := by ring
      have h3 := s.hval.isLt
      split <;> omega⟩ }

/-- The basis state with the height register incremented by one
(modular, as `increment` acts on the register). -/
def incState (s : QState k n w) : QState k n w :=
  { s with hval := ⟨if s.hval.val + 1 = 2 ^ (k + 1) then 0 else s.hval.val + 1, by
      have h3 := s.hval.isLt
      split <;> omega⟩ }

/-- The basis state with the height register decremented by one (modular). -/
def decState (s : QState k n w) : QState k n w :=
  { s with hval := ⟨if s.hval.val = 0 then 2 ^ (k + 1) - 1 else s.hval.val - 1, by
      have h3 := s.hval.isLt
      split <;> omega⟩ }

/-- Gate semantics of `increment(x.h, 1)`: the amplitude at height `h`
comes from height `h - 1`. -/
def incGate (f : V k n w) : V k n w := fun s => f (decState s)

/-- Gate semantics of `increment(x.h, -1)`. -/
def decGate (f : V k n w) : V k n w := fun s => f (incState s)

/-- `ry(θ)` on the oddity qubit, controlled on a basis-diagonal condition
that does not depend on the oddity qubit (used with conditions on `h[1:]`):
`RY(θ) |0> = cos(θ/2)|0> + sin(θ/2)|1>`,
`RY(θ) |1> = -sin(θ/2)|0> + cos(θ/2)|1>`. -/
noncomputable def cry (cond : QState k n w → Bool) (θ : ℝ) (f : V k n w) : V k n w := fun s =>
  if cond s then
    if lsbTrue s then
      (Real.sin (θ / 2) : ℂ) * f (flipLSBState s) + (Real.cos (θ / 2) : ℂ) * f s
    else
      (Real.cos (θ / 2) : ℂ) * f s - (Real.sin (θ / 2) : ℂ) * f (flipLSBState s)
  else f s

/-- Replace the whole `branch_qa[0]` register of a basis state. -/
def withReg0 (s : QState k n w) (v : Fin w → Bool) : QState k n w :=
  { s with reg := fun i => if i = 0 then v else s.reg i }

/-- Set one qubit of `branch_qa[0]`. -/
def upd0 (s : QState k n w) (j : Fin w) (b : Bool) : QState k n w :=
  withReg0 s (fun j' => if j' = j then b else s.reg 0 j')

/-- Hadamard gate on qubit `j` of `branch_qa[0]`. -/
noncomputable def singleH (j : Fin w) (f : V k n w) : V k n w := fun s =>
  (Real.sqrt 2 : ℂ)⁻¹ *
    (f (upd0 s j false) + (if s.reg 0 j then -1 else 1) * f (upd0 s j true))

/-- Hadamard gates on a list of qubits of `branch_qa[0]`. -/
noncomputable def applyHBits : List (Fin w) → V k n w → V k n w
  | [], f => f
  | j :: js, f => singleH j (applyHBits js f)

/-- `h(x.branch_qa[0])`: Hadamard on every qubit of the first branch
register. -/
noncomputable def hadamard_reg0 (f : V k n w) : V k n w := applyHBits (List.finRange w) f

/-- The state permutation of
`cyclic_shift(list(x.branch_qa) + [x.branch_workspace])`: the workspace
content moves to `branch_qa[0]` and every branch entry moves one slot up
(the last entry into the workspace). -/
def shiftFwdState (s : QState k n w) : QState k n w :=
  { s with reg := fun i => s.reg (i - 1) }

/-- Inverse rotation of `shiftFwdState`. -/
def shiftBwdState (s : QState k n w) : QState k n w :=
  { s with reg := fun i => s.reg (i + 1) }

/-- The block `with control(oddity_qb, ctrl_state = "0"):
cyclic_shift(...); h(x.branch_qa[0])` --- executed on the components whose
oddity qubit is `0`. -/
noncomputable def spread (f : V k n w) : V k n w := fun s =>
  if lsbTrue s then f s
  else hadamard_reg0 (fun t => f (shiftBwdState t)) s

/-- The inverse of `spread` as produced by `invert()`: the reversed block
`h(x.branch_qa[0]); inverse cyclic shift` under the same control. -/
noncomputable def unspread (f : V k n w) : V k n w := fun s =>
  if lsbTrue s then f s
  else hadamard_reg0 f (shiftFwdState s)

/-- `with control(x.h[1:], ctrl_state = pattern, invert = inverted)` around
a composite block acting only on the oddity qubit and the branch/workspace
registers. -/
def ctrlUpper (pattern : Nat) (inverted : Bool)
    (body : V k n w → V k n w) (f : V k n w) : V k n w := fun s =>
  if xor (decide (upperVal s = pattern)) inverted then body f s else f s

/-- `phase = -np.arctan(c) * 2` with `c = degree ** 0.5 = sqrt(2^w)`. -/
noncomputable def theta (w : Nat) : ℝ := -2 * Real.arctan (Real.sqrt (2 ^ w))

/-- `root_phase = -np.arctan(c * np.sqrt(x.max_depth)) * 2`. -/
noncomputable def thetaRoot (n w : Nat) : ℝ :=
  -2 * Real.arctan (Real.sqrt (2 ^ w) * Real.sqrt n)

/-- The operator `U_x` synthesised by `psi_prep(x, even)`, by the four
source branches (parity flag x parity of `max_depth`); gates are applied
innermost first, matching the textual order of the Python function.
`ctrl_state = -1` on the `k` qubits of `h[1:]` is the all-ones pattern
`2^k - 1`; `max_depth >> 1` and `(max_depth - 1) >> 1` are the integer
halvings of the root heights. -/
noncomputable def psi_prep (even : Bool) (f : V k n w) : V k n w :=
  if even then
    if n % 2 = 0 then
      incGate (spread
        (cry (fun s => decide (upperVal s = (n - 1) / 2)) (thetaRoot n w - theta w)
          (cry (fun _ => true) (theta w)
            (cry (fun s => decide (upperVal s = 2 ^ k - 1)) (-theta w)
              (decGate f)))))
    else
      incGate (ctrlUpper ((n - 1) / 2) true
        (fun g => spread (cry (fun _ => true) (theta w) g))
        (cry (fun s => decide (upperVal s = 2 ^ k - 1)) (-theta w) (decGate f)))
  else
    if n % 2 = 1 then
      spread (cry (fun s => decide (upperVal s = n / 2)) (thetaRoot n w - theta w)
        (cry (fun _ => true) (theta w) f))
    else
      ctrlUpper (n / 2) true (fun g => spread (cry (fun _ => true) (theta w) g)) f

/-- The operator `U_x^(-1)` produced by `with invert(): psi_prep(self,
even)`: the same gate sequence reversed, with each rotation angle negated,
the increment direction reversed, and the shift/Hadamard block inverted. -/
noncomputable def psi_prep_inv (even : Bool) (f : V k n w) : V k n w :=
  if even then
    if n % 2 = 0 then
      incGate (cry (fun s => decide (upperVal s = 2 ^ k - 1)) (theta w)
        (cry (fun _ => true) (-theta w)
          (cry (fun s => decide (upperVal s = (n - 1) / 2)) (-(thetaRoot n w - theta w))
            (unspread (decGate f)))))
    else
      incGate (cry (fun s => decide (upperVal s = 2 ^ k - 1)) (theta w)
        (ctrlUpper ((n - 1) / 2) true
          (fun g => cry (fun _ => true) (-theta w) (unspread g))
          (decGate f)))
  else
    if n % 2 = 1 then
      cry (fun _ => true) (-theta w)
        (cry (fun s => decide (upperVal s = n / 2)) (-(thetaRoot n w - theta w))
          (unspread f))
    else
      ctrlUpper (n / 2) true (fun g => cry (fun _ => true) (-theta w) (unspread g)) f

/-- The workspace register is zero (all control qubits of the
`"0" * len(self.branch_workspace)` part of the first `mcz` match). -/
def wsZero (s : QState k n w) : Prop := s.reg (Fin.last n) = fun _ => false

instance (s : QState k n w) : Decidable (wsZero s) := by
  unfold wsZero; infer_instance

/-- Control condition of the first `mcz` of `qstep_diffuser`: oddity qubit
in state `"0"` iff `even`, all workspace qubits zero, accept flipped
(`accept = False`), reject flipped (`reject = False`). -/
def S1pred (even : Bool) (acc rej : QState k n w → Bool) (s : QState k n w) : Prop :=
  lsbTrue s = !even ∧ wsZero s ∧ acc s = false ∧ rej s = false

/-- Control condition of the second `mcz` of `qstep_diffuser`: oddity qubit
as for the first `mcz`, and the re-evaluated reject value true. -/
def F2pred (even : Bool) (rej : QState k n w → Bool) (s : QState k n w) : Prop :=
  lsbTrue s = !even ∧ rej s = true

instance (even : Bool) (acc rej : QState k n w → Bool) (s : QState k n w) :
    Decidable (S1pred even acc rej s) := by
  unfold S1pred; infer_instance

instance (even : Bool) (rej : QState k n w → Bool) (s : QState k n w) :
    Decidable (F2pred even rej s) := by
  unfold F2pred; infer_instance

/-- First `mcz` of `qstep_diffuser`: phase flip on the basis states
matching `S1pred`. -/
noncomputable def mcz1 (even : Bool) (acc rej : QState k n w → Bool) (f : V k n w) : V k n w :=
  fun s => if S1pred even acc rej s then -f s else f s

/-- Second `mcz` of `qstep_diffuser`: phase flip on the basis states
matching `F2pred`. -/
noncomputable def mcz2 (even : Bool) (rej : QState k n w → Bool) (f : V k n w) : V k n w :=
  fun s => if F2pred even rej s then -f s else f s

/-- Proof infrastructure: an amplitude function vanishing outside a set of
basis states. -/
def Vanishes (A : QState k n w → Prop) (f : V k n w) : Prop :=
  ∀ s, ¬ A s → f s = 0

/-- Proof infrastructure: closure of a set of basis states under flipping
the oddity qubit. -/
def pairCl (A : QState k n w → Prop) : QState k n w → Prop :=
  fun s => A s ∨ A (flipLSBState s)

/-- Proof infrastructure: an operator whose output at a basis state only
depends on the input amplitudes at basis states with the same `h[1:]`
value (so that wrapping it in a `control` on `h[1:]` is sound). -/
def UpperLocal (T : V k n w → V k n w) : Prop :=
  ∀ f g s, (∀ t, upperVal t = upperVal s → f t = g t) → T f s = T g s

/-- Proof infrastructure: restriction of an amplitude function to a set of
basis states (diagonal projector). -/
noncomputable def projOn (A : QState k n w → Prop) [DecidablePred A]
    (g : V k n w) : V k n w := fun s => if A s then g s else 0

/-- Proof infrastructure: a ℂ-linear operator on amplitude functions. -/
def LinOp (T : V k n w → V k n w) : Prop :=
  ∀ (a : ℂ) (p q : V k n w),
    T (fun s => p s + a * q s) = fun s => T p s + a * T q s

/-- `qstep_diffuser(even)` without external controls: `U_x^(-1)`, the
first `mcz`, `U_x`, the second `mcz`. -/
noncomputable def qstep_diffuser (even : Bool) (acc rej : QState k n w → Bool)
    (f : V k n w) : V k n w :=
  mcz2 even rej (psi_prep even (mcz1 even acc rej (psi_prep_inv even f)))

/-- Basis state prepared by `init_node(path)`:
`h := max_depth - len(path)` and the reversed path in the low entries of
`branch_qa`, every other register zero. -/
def node_state (p : List (Fin w → Bool)) : QState k n w :=
  { hval := ⟨(n - p.length) % 2 ^ (k + 1), Nat.mod_lt _ (by positivity)⟩,
    reg := fun i => p.reverse.getD i.val (fun _ => false) }

/-- The state vector of a freshly initialized node. -/
noncomputable def node_vec (p : List (Fin w → Bool)) : V k n w := fun s =>
  if s = node_state p then 1 else 0

end QWalk

/-! Theorems.  Each claim of the specification gets one theorem below
(plus a closed witness where the theorem carries hypotheses). -/

/-- C1: for every tree with maximum depth `max_depth` and every path `p`
with `len(p) <= max_depth`, `path_decoder` applied to
`h = max_depth - len(p)` and the list `reverse(p)` padded with zeros to
length `max_depth` (exactly the register contents written by `init_node`)
returns `p`. -/
theorem C1_path_decoder_round_trip (max_depth : Nat) (p : List Nat)
    (hp : p.length ≤ max_depth) :
    path_decoder max_depth (init_node_state max_depth p).1
      (init_node_state max_depth p).2 = p := by
  simp only [init_node_state, path_decoder, pySlice]
  have h1 : (max_depth : Int) - ((max_depth - p.length : Nat) : Int) =
      (p.length : Int) := by omega
  rw [h1]
  rw [if_pos (by positivity)]
  rw [Int.toNat_natCast]
  rw [List.take_left' (by simp), List.reverse_reverse]

/-- Closed witness for C1 at a concrete input. -/
theorem C1_witness :
    ([1, 0, 1] : List Nat).length ≤ 4 ∧
      path_decoder 4 (init_node_state 4 [1, 0, 1]).1
        (init_node_state 4 [1, 0, 1]).2 = [1, 0, 1] :=
  ⟨by decide, C1_path_decoder_round_trip 4 [1, 0, 1] (by decide)⟩

/-- C4: if the classical accept predicate holds on the current root path
(`tree.root_path` for a `Subtree`, `[]` otherwise), `find_solution` returns
`[]` before any quantum sampling (the result does not depend on the
`measure` oracle); otherwise, if `tree.max_depth == 0`, it returns
`None`. -/
theorem C4_root_accept_and_zero_depth
    (measure : QBTree → List (Outcome × ℚ)) (clAccept : List Nat → Bool)
    (fuel : Nat) (t : QBTree) (traversed : List (List Nat)) :
    (clAccept (rootPathOf t) = true →
      findSolutionAux measure clAccept (fuel + 1) t traversed =
        .ok (some [], traversed)) ∧
    (clAccept (rootPathOf t) = false → t.maxDepth = 0 →
      findSolutionAux measure clAccept (fuel + 1) t traversed =
        .ok (none, traversed)) := by
  constructor
  · intro h
    simp [findSolutionAux, h]
  · intro h h0
    simp [findSolutionAux, h, h0]

/-- Closed witness for C4 at concrete inputs: an accepted root on a
depth-2 tree, and a rejected root on a depth-0 tree. -/
theorem C4_witness :
    findSolutionAux (fun _ => [((0, 0, []), 1)]) (fun p => p = []) 1
        (.base 2) [] = .ok (some [], []) ∧
      findSolutionAux (fun _ => [((0, 0, []), 1)]) (fun _ => false) 1
        (.base 0) [] = .ok (none, []) :=
  ⟨(C4_root_accept_and_zero_depth _ _ 0 (.base 2) []).1 (by decide),
   (C4_root_accept_and_zero_depth _ _ 0 (.base 0) []).2 (by decide) (by decide)⟩

/-- C5: for every tree and every path `p` with `len(p) <= max_depth`,
`tree.subtree(p).init_node([])` writes the same `(h, branch_qa)` register
values as `tree.init_node(p)`; both preparations are deterministic basis
states, so the measurement distributions over `(h, branch_qa)` coincide. -/
theorem C5_subtree_addressing (max_depth : Nat) (p : List Nat)
    (hp : p.length ≤ max_depth) :
    subtree_init_node_state max_depth p [] = init_node_state max_depth p := by
  simp only [subtree_init_node_state, init_node_state, List.append_nil,
    List.length_nil, Nat.sub_zero]
  have hc : max_depth - p.length + p.length - p.length = max_depth - p.length := by
    omega
  rw [hc]

/-- Closed witness for C5 at a concrete input. -/
theorem C5_witness :
    ([1, 0] : List Nat).length ≤ 5 ∧
      subtree_init_node_state 5 [1, 0] [] = init_node_state 5 [1, 0] :=
  ⟨by decide, C5_subtree_addressing 5 [1, 0] (by decide)⟩

/-- C6: for every tree and control list, `quantum_step(ctrl)` emits exactly
two diffuser applications, in order: first `qstep_diffuser` with
`even = (max_depth is odd)`, then `qstep_diffuser` with
`even = (max_depth is even)`, both receiving the same `ctrl` list. -/
theorem C6_quantum_step_order (max_depth : Nat) (ctrl : List Nat) :
    quantum_step max_depth ctrl =
      [.diffuser (decide (Odd max_depth)) ctrl,
       .diffuser (decide (Even max_depth)) ctrl] := by
  have h1 : decide (max_depth % 2 ≠ 0) = decide (Odd max_depth) := by
    simp only [decide_eq_decide, Nat.odd_iff]
    omega
  have h2 : decide (max_depth % 2 = 0) = decide (Even max_depth) := by
    simp only [decide_eq_decide, Nat.even_iff]
  rw [quantum_step, h1, h2]

/-- C9: constructing a `Subtree` fails immediately when
`len(root_path) > parent.max_depth`; otherwise it succeeds and the
resulting tree's `max_depth` is `parent.max_depth - len(root_path)`. -/
theorem C9_subtree_precondition (parent : QBTree) (rp : List Nat) :
    (parent.maxDepth < rp.length →
      subtree_mk parent rp = .error subtreeErrMsg) ∧
    (rp.length ≤ parent.maxDepth →
      subtree_mk parent rp = .ok (.sub parent rp) ∧
      (QBTree.sub parent rp).maxDepth = parent.maxDepth - rp.length) := by
  constructor
  · intro h
    simp [subtree_mk, h]
  · intro h
    refine ⟨?_, rfl⟩
    rw [subtree_mk, if_neg (by omega)]

/-- Closed witness for C9: both branches at concrete inputs. -/
theorem C9_witness :
    ((QBTree.base 3).maxDepth < ([1, 2, 3, 4] : List Nat).length ∧
      subtree_mk (.base 3) [1, 2, 3, 4] = .error subtreeErrMsg) ∧
    (([1, 2] : List Nat).length ≤ (QBTree.base 3).maxDepth ∧
      subtree_mk (.base 3) [1, 2] = .ok (.sub (.base 3) [1, 2]) ∧
      (QBTree.sub (.base 3) [1, 2]).maxDepth =
        (QBTree.base 3).maxDepth - ([1, 2] : List Nat).length) :=
  ⟨⟨by decide, (C9_subtree_precondition (.base 3) [1, 2, 3, 4]).1 (by decide)⟩,
   ⟨by decide, (C9_subtree_precondition (.base 3) [1, 2]).2 (by decide)⟩⟩

/-- C10: for a non-`Subtree` tree of depth `n` and paths `p`, `q` with
`len(p) + len(q) <= n`, `t.subtree(p)` succeeds, and
`t.subtree(p).subtree(q)` delegates to the original tree with the
concatenated root path: the result is a `Subtree` whose `original_tree` is
`t`, whose `root_path` is `p ++ q` and whose `max_depth` is
`n - len(p) - len(q)`. -/
theorem C10_subtree_of_subtree (n : Nat) (p q : List Nat)
    (h : p.length + q.length ≤ n) :
    (QBTree.base n).subtree p = .ok (.sub (.base n) p) ∧
    (QBTree.sub (.base n) p).subtree q = .ok (.sub (.base n) (p ++ q)) ∧
    (QBTree.sub (.base n) (p ++ q)).original_tree = some (.base n) ∧
    rootPathOf (.sub (.base n) (p ++ q)) = p ++ q ∧
    (QBTree.sub (.base n) (p ++ q)).maxDepth = n - p.length - q.length := by
  refine ⟨?_, ?_, rfl, rfl, ?_⟩
  · rw [QBTree.subtree, subtree_mk, if_neg (by simp [QBTree.maxDepth]; omega)]
  · rw [QBTree.subtree, QBTree.subtree, subtree_mk,
      if_neg (by simp [QBTree.maxDepth]; omega)]
  · simp [QBTree.maxDepth]
    omega

/-- Closed witness for C10 at a concrete input. -/
theorem C10_witness :
    ([1] : List Nat).length + ([0, 1] : List Nat).length ≤ 4 ∧
      ((QBTree.base 4).subtree [1] = .ok (.sub (.base 4) [1]) ∧
       (QBTree.sub (.base 4) [1]).subtree [0, 1] =
         .ok (.sub (.base 4) ([1] ++ [0, 1])) ∧
       (QBTree.sub (.base 4) ([1] ++ [0, 1])).original_tree =
         some (.base 4) ∧
       rootPathOf (.sub (.base 4) ([1] ++ [0, 1])) = [1] ++ [0, 1] ∧
       (QBTree.sub (.base 4) ([1] ++ [0, 1])).maxDepth = 4 - 1 - 2) :=
  ⟨by decide, C10_subtree_of_subtree 4 [1] [0, 1] (by decide)⟩

/-- C2: for every invocation of `find_solution` that reaches the sampling
step (root not accepted, nonzero depth), with `s` the total sampled
probability mass of outcomes whose phase-estimation value is `0`:
if `s <= 0.25` the function returns `None`; if `0.25 < s <= 0.375` it
raises the fatal insufficient-precision error; and the candidate loop also
raises that error when every candidate branch has been tried (each
recursive sub-search completing without a solution) or skipped, without
yielding a solution. -/
theorem C2_thresholds_and_exhaustion
    (measure : QBTree → List (Outcome × ℚ)) (clAccept : List Nat → Bool)
    (fuel : Nat) (t : QBTree) (traversed : List (List Nat))
    (hacc : clAccept (rootPathOf t) = false) (hd : t.maxDepth ≠ 0) :
    (zero_mass (measure t) ≤ 1/4 →
      findSolutionAux measure clAccept (fuel + 1) t traversed =
        .ok (none, traversed)) ∧
    (1/4 < zero_mass (measure t) → zero_mass (measure t) ≤ 3/8 →
      findSolutionAux measure clAccept (fuel + 1) t traversed =
        .error insufficientMsg) ∧
    (∀ (rec : QBTree → List (List Nat) →
          Except String (Option (List Nat) × List (List Nat)))
       (path : List Nat) (branches : List Outcome) (trav : List (List Nat)),
      (∀ st tv, rec st tv = .ok (none, tv)) →
      (∀ b ∈ branches,
        ∃ st, t.subtree (path_decoder t.maxDepth b.2.1 b.2.2) = .ok st) →
      findSolLoop rec t path branches trav = .error insufficientMsg) := by
  refine ⟨?_, ?_, ?_⟩
  · intro hs
    rw [findSolutionAux]
    simp only [hacc, Bool.false_eq_true, if_false]
    rw [if_neg hd, if_pos hs]
  · intro hs1 hs2
    rw [findSolutionAux]
    simp only [hacc, Bool.false_eq_true, if_false]
    rw [if_neg hd, if_neg (not_le.mpr hs1), if_pos hs2]
  · intro rec path branches
    induction branches with
    | nil => intro trav _ _; rfl
    | cons b rest ih =>
      intro trav hrec hsub
      by_cases hskip : path ++ path_decoder t.maxDepth b.2.1 b.2.2 ∈ trav ∨
          path_decoder t.maxDepth b.2.1 b.2.2 = []
      · rw [findSolLoop, if_pos hskip]
        exact ih trav hrec (fun b hb => hsub b (List.mem_cons_of_mem _ hb))
      · obtain ⟨st, hst⟩ := hsub b (List.mem_cons_self _ _)
        rw [findSolLoop, if_neg hskip]
        simp only [hst, hrec st trav]
        exact ih _ hrec (fun b hb => hsub b (List.mem_cons_of_mem _ hb))

/-- Closed witness for C2: the three behaviours at concrete inputs
(`s = 1/5`, `s = 3/10`, and a loop whose single candidate is tried without
success). -/
theorem C2_witness :
    (findSolutionAux (fun _ => [((0, 0, []), 1/5)]) (fun _ => false) 1
        (.base 1) [] = .ok (none, [])) ∧
    (findSolutionAux (fun _ => [((0, 0, []), 3/10)]) (fun _ => false) 1
        (.base 1) [] = .error insufficientMsg) ∧
    (findSolLoop (fun _ tv => .ok (none, tv)) (.base 2) [] [(0, 1, [1, 0])] []
        = .error insufficientMsg) := by
  refine ⟨?_, ?_, ?_⟩
  · exact (C2_thresholds_and_exhaustion _ _ 0 (.base 1) [] rfl (by decide)).1
      (by norm_num [zero_mass, zero_entries])
  · exact (C2_thresholds_and_exhaustion _ _ 0 (.base 1) [] rfl (by decide)).2.1
      (by norm_num [zero_mass, zero_entries])
      (by norm_num [zero_mass, zero_entries])
  · exact (C2_thresholds_and_exhaustion (fun _ => []) (fun _ => false) 0
      (.base 2) [] rfl (by decide)).2.2 _ [] [(0, 1, [1, 0])] []
      (fun _ _ => rfl)
      (by intro b hb; simp at hb; subst hb; exact ⟨_, rfl⟩)

/-- C3: the candidates with phase-estimation value `0` are processed in
ascending order of sampled height (a stable sort of `new_branches` by the
`h` component); a candidate already in `traversed` or with empty decoded
relative path is skipped; the first remaining candidate whose recursive
subtree search returns a solution makes the function return
`path ++ candidate ++ sub-solution`. -/
theorem C3_candidate_processing :
    (∀ l : List Outcome,
      List.Sorted (fun a b : Outcome => a.2.1 ≤ b.2.1) (sortByH l) ∧
      (sortByH l).Perm l) ∧
    (∀ (rec : QBTree → List (List Nat) →
          Except String (Option (List Nat) × List (List Nat)))
       (t : QBTree) (path : List Nat) (b : Outcome) (rest : List Outcome)
       (trav : List (List Nat)),
      (path ++ path_decoder t.maxDepth b.2.1 b.2.2 ∈ trav ∨
          path_decoder t.maxDepth b.2.1 b.2.2 = []) →
      findSolLoop rec t path (b :: rest) trav =
        findSolLoop rec t path rest trav) ∧
    (∀ (rec : QBTree → List (List Nat) →
          Except String (Option (List Nat) × List (List Nat)))
       (t : QBTree) (path : List Nat) (b : Outcome) (rest : List Outcome)
       (trav : List (List Nat)) (st : QBTree) (sol : List Nat)
       (tv2 : List (List Nat)),
      ¬(path ++ path_decoder t.maxDepth b.2.1 b.2.2 ∈ trav ∨
          path_decoder t.maxDepth b.2.1 b.2.2 = []) →
      t.subtree (path_decoder t.maxDepth b.2.1 b.2.2) = .ok st →
      rec st trav = .ok (some sol, tv2) →
      findSolLoop rec t path (b :: rest) trav =
        .ok (some (path ++ path_decoder t.maxDepth b.2.1 b.2.2 ++ sol), tv2)) ∧
    (∀ (measure : QBTree → List (Outcome × ℚ)) (clAccept : List Nat → Bool)
       (fuel : Nat) (t : QBTree) (traversed : List (List Nat)),
      clAccept (rootPathOf t) = false → t.maxDepth ≠ 0 →
      3/8 < zero_mass (measure t) →
      findSolutionAux measure clAccept (fuel + 1) t traversed =
        findSolLoop (findSolutionAux measure clAccept fuel) t (rootPathOf t)
          (sortByH (zero_branches (measure t))) traversed) := by
  refine ⟨?_, ?_, ?_, ?_⟩
  · intro l
    exact ⟨List.sorted_insertionSort _ l, List.perm_insertionSort _ l⟩
  · intro rec t path b rest trav hskip
    rw [findSolLoop, if_pos hskip]
  · intro rec t path b rest trav st sol tv2 hskip hst hrec
    rw [findSolLoop, if_neg hskip]
    simp only [hst, hrec]
  · intro measure clAccept fuel t traversed hacc hd hs
    rw [findSolutionAux]
    simp only [hacc, Bool.false_eq_true, if_false]
    rw [if_neg hd, if_neg (not_le.mpr (lt_trans (by norm_num) hs)),
      if_neg (not_le.mpr hs)]

/-- Closed witness for C3: the first-success behaviour and the dispatch to
the sorted candidate loop at concrete inputs. -/
theorem C3_witness :
    (findSolLoop (fun _ tv => .ok (some [9], tv)) (.base 2) [] [(0, 1, [1, 0])]
        [] = .ok (some ([] ++ [1] ++ [9]), [])) ∧
    (findSolutionAux (fun _ => [((0, 2, [7, 7]), 1/2), ((0, 1, [5, 5]), 1/2)])
        (fun _ => false) 1 (.base 2) [] =
      findSolLoop (findSolutionAux
          (fun _ => [((0, 2, [7, 7]), 1/2), ((0, 1, [5, 5]), 1/2)])
          (fun _ => false) 0)
        (.base 2) [] [(0, 1, [5, 5]), (0, 2, [7, 7])] []) := by
  constructor
  · have h := C3_candidate_processing.2.2.1 (fun _ tv => .ok (some [9], tv))
      (.base 2) [] (0, 1, [1, 0]) [] [] (.sub (.base 2) [1]) [9] []
      (by decide) rfl rfl
    simpa using h
  · have h := C3_candidate_processing.2.2.2
      (fun _ => [((0, 2, [7, 7]), 1/2), ((0, 1, [5, 5]), 1/2)])
      (fun _ => false) 0 (.base 2) [] rfl (by decide)
      (by norm_num [zero_mass, zero_entries])
    rw [h]
    rfl

/-- C8: when `find_solution` is called without a classical accept function,
it runs with the default `cl_accept`, which for every candidate path
queries the simulation oracle on a fresh tree copy (a `Subtree` with empty
root path of the original tree) initialized at the candidate node, and
returns `True` iff the resulting measurement distribution is exactly
`{True : 1}`. -/
theorem C8_default_accept
    (measure : QBTree → List (Outcome × ℚ))
    (acceptMeas : QBTree → Nat × List Nat → List (Bool × ℚ))
    (fuel : Nat) (t : QBTree) :
    find_solution_top measure acceptMeas none fuel t =
      findSolutionAux measure (default_cl_accept acceptMeas t) fuel t [] ∧
    (∀ p, default_cl_accept acceptMeas t p = true ↔
      acceptMeas (default_copy_target t)
        (subtree_init_node_state (copy_orig_depth t) [] p) = [(true, 1)]) := by
  refine ⟨rfl, ?_⟩
  intro p
  simp [default_cl_accept]

namespace QWalk

variable {k n w : Nat}

theorem hval_flip (s : QState k n w) :
    (flipLSBState s).hval.val =
      if s.hval.val % 2 = 0 then s.hval.val + 1 else s.hval.val - 1 := rfl

theorem reg_flip (s : QState k n w) : (flipLSBState s).reg = s.reg := rfl

theorem flip_flip (s : QState k n w) : flipLSBState (flipLSBState s) = s := by
  ext
  · rw [hval_flip, hval_flip]
    have h3 := s.hval.isLt
    have h2 : 2 ^ (k + 1) = 2 * 2 ^ k := by ring
    split <;> split <;> omega
  · rfl

theorem lsb_flip (s : QState k n w) : lsbTrue (flipLSBState s) = !lsbTrue s := by
  rw [lsbTrue, lsbTrue, ← decide_not, decide_eq_decide, hval_flip]
  have h3 := s.hval.isLt
  have h2 : 2 ^ (k + 1) = 2 * 2 ^ k := by ring
  split <;> omega

theorem upper_flip (s : QState k n w) : upperVal (flipLSBState s) = upperVal s := by
  rw [upperVal, upperVal, hval_flip]
  split <;> omega

theorem hval_inc (s : QState k n w) :
    (incState s).hval.val =
      if s.hval.val + 1 = 2 ^ (k + 1) then 0 else s.hval.val + 1 := rfl

theorem hval_dec (s : QState k n w) :
    (decState s).hval.val =
      if s.hval.val = 0 then 2 ^ (k + 1) - 1 else s.hval.val - 1 := rfl

theorem reg_inc (s : QState k n w) : (incState s).reg = s.reg := rfl

theorem reg_dec (s : QState k n w) : (decState s).reg = s.reg := rfl

theorem inc_dec (s : QState k n w) : incState (decState s) = s := by
  ext
  · rw [hval_inc, hval_dec]
    have h3 := s.hval.isLt
    have h2 : 0 < 2 ^ (k + 1) := by positivity
    split <;> split <;> omega
  · rfl

theorem dec_inc (s : QState k n w) : decState (incState s) = s := by
  ext
  · rw [hval_dec, hval_inc]
    have h3 := s.hval.isLt
    have h2 : 0 < 2 ^ (k + 1) := by positivity
    split <;> split <;> omega
  · rfl

theorem lsb_inc (s : QState k n w) : lsbTrue (incState s) = !lsbTrue s := by
  rw [lsbTrue, lsbTrue, ← decide_not, decide_eq_decide, hval_inc]
  have h3 := s.hval.isLt
  have h2 : 2 ^ (k + 1) = 2 * 2 ^ k := by ring
  split <;> omega

theorem lsb_dec (s : QState k n w) : lsbTrue (decState s) = !lsbTrue s := by
  rw [lsbTrue, lsbTrue, ← decide_not, decide_eq_decide, hval_dec]
  have h3 := s.hval.isLt
  have h2 : 2 ^ (k + 1) = 2 * 2 ^ k := by ring
  split <;> omega

theorem reg_withReg0 (s : QState k n w) (v : Fin w → Bool) :
    (withReg0 s v).reg = fun i => if i = 0 then v else s.reg i := rfl

theorem hval_withReg0 (s : QState k n w) (v : Fin w → Bool) :
    (withReg0 s v).hval = s.hval := rfl

theorem lsb_withReg0 (s : QState k n w) (v : Fin w → Bool) :
    lsbTrue (withReg0 s v) = lsbTrue s := rfl

theorem upper_withReg0 (s : QState k n w) (v : Fin w → Bool) :
    upperVal (withReg0 s v) = upperVal s := rfl

theorem withReg0_withReg0 (s : QState k n w) (u v : Fin w → Bool) :
    withReg0 (withReg0 s u) v = withReg0 s v := by
  ext i j
  · rfl
  · rw [reg_withReg0, reg_withReg0, reg_withReg0]
    by_cases h : i = 0 <;> simp [h]

theorem withReg0_self (s : QState k n w) : withReg0 s (s.reg 0) = s := by
  ext i j
  · rfl
  · rw [reg_withReg0]
    by_cases h : i = 0 <;> simp [h]

theorem shiftBwd_shiftFwd (s : QState k n w) :
    shiftBwdState (shiftFwdState s) = s := by
  ext i j
  · rfl
  · show s.reg (i + 1 - 1) j = s.reg i j
    rw [add_sub_cancel_right]

theorem shiftFwd_shiftBwd (s : QState k n w) :
    shiftFwdState (shiftBwdState s) = s := by
  ext i j
  · rfl
  · show s.reg (i - 1 + 1) j = s.reg i j
    rw [sub_add_cancel]

theorem lsb_shiftFwd (s : QState k n w) : lsbTrue (shiftFwdState s) = lsbTrue s := rfl

theorem lsb_shiftBwd (s : QState k n w) : lsbTrue (shiftBwdState s) = lsbTrue s := rfl

theorem upper_shiftFwd (s : QState k n w) : upperVal (shiftFwdState s) = upperVal s := rfl

theorem upper_shiftBwd (s : QState k n w) : upperVal (shiftBwdState s) = upperVal s := rfl

theorem upd0_eq_withReg0 (s : QState k n w) (j : Fin w) (b : Bool) :
    upd0 s j b = withReg0 s (fun j' => if j' = j then b else s.reg 0 j') := rfl

theorem reg0_withReg0 (s : QState k n w) (v : Fin w → Bool) :
    (withReg0 s v).reg 0 = v := by
  rw [reg_withReg0]
  simp

theorem reg0_upd0 (s : QState k n w) (j : Fin w) (b : Bool) :
    (upd0 s j b).reg 0 j = b := by
  rw [upd0_eq_withReg0, reg0_withReg0]
  simp

theorem reg0_upd0_ne (s : QState k n w) (j j' : Fin w) (b : Bool) (h : j' ≠ j) :
    (upd0 s j b).reg 0 j' = s.reg 0 j' := by
  rw [upd0_eq_withReg0, reg0_withReg0]
  simp [h]

theorem withReg0_upd0 (s : QState k n w) (j : Fin w) (b : Bool) (v : Fin w → Bool) :
    withReg0 (upd0 s j b) v = withReg0 s v := by
  rw [upd0_eq_withReg0, withReg0_withReg0]

theorem reg_upd0_ne0 (s : QState k n w) (j : Fin w) (b : Bool) (i : Fin (n + 1))
    (hi : i ≠ 0) : (upd0 s j b).reg i = s.reg i := by
  rw [upd0_eq_withReg0, reg_withReg0]
  simp [hi]

theorem upd0_upd0_same (s : QState k n w) (j : Fin w) (b b' : Bool) :
    upd0 (upd0 s j b) j b' = upd0 s j b' := by
  ext i jj
  · rfl
  · by_cases hi : i = 0
    · subst hi
      by_cases hjj : jj = j
      · subst hjj
        rw [reg0_upd0, reg0_upd0]
      · rw [reg0_upd0_ne _ _ _ _ hjj, reg0_upd0_ne _ _ _ _ hjj,
          reg0_upd0_ne _ _ _ _ hjj]
    · rw [reg_upd0_ne0 _ _ _ _ hi, reg_upd0_ne0 _ _ _ _ hi,
        reg_upd0_ne0 _ _ _ _ hi]

theorem upd0_eq_self (s : QState k n w) (j : Fin w) (b : Bool)
    (h : s.reg 0 j = b) : upd0 s j b = s := by
  rw [upd0_eq_withReg0]
  have hv : (fun j' => if j' = j then b else s.reg 0 j') = s.reg 0 := by
    funext j'
    by_cases hj : j' = j
    · simp [hj, h]
    · simp [hj]
  rw [hv, withReg0_self]

theorem upd0_comm (s : QState k n w) (j j' : Fin w) (b b' : Bool) (h : j ≠ j') :
    upd0 (upd0 s j b) j' b' = upd0 (upd0 s j' b') j b := by
  ext i jj
  · rfl
  · by_cases hi : i = 0
    · subst hi
      by_cases h1 : jj = j'
      · subst h1
        rw [reg0_upd0, reg0_upd0_ne _ _ _ _ (Ne.symm h), reg0_upd0]
      · by_cases h2 : jj = j
        · subst h2
          rw [reg0_upd0_ne _ _ _ _ h1, reg0_upd0, reg0_upd0]
        · rw [reg0_upd0_ne _ _ _ _ h1, reg0_upd0_ne _ _ _ _ h2,
            reg0_upd0_ne _ _ _ _ h2, reg0_upd0_ne _ _ _ _ h1]
    · rw [reg_upd0_ne0 _ _ _ _ hi, reg_upd0_ne0 _ _ _ _ hi,
        reg_upd0_ne0 _ _ _ _ hi, reg_upd0_ne0 _ _ _ _ hi]

theorem hval_upd0 (s : QState k n w) (j : Fin w) (b : Bool) :
    (upd0 s j b).hval = s.hval := rfl

theorem sqrt2_inv_mul_self :
    ((Real.sqrt 2 : ℂ))⁻¹ * ((Real.sqrt 2 : ℂ))⁻¹ = (2 : ℂ)⁻¹ := by
  rw [← mul_inv]
  congr 1
  norm_cast
  exact Real.mul_self_sqrt (by norm_num)

theorem singleH_singleH (j : Fin w) (f : V k n w) (s : QState k n w) :
    singleH j (singleH j f) s = f s := by
  simp only [singleH, upd0_upd0_same, reg0_upd0]
  by_cases hb : s.reg 0 j
  · rw [hb, upd0_eq_self s j true hb]
    simp only [if_true, if_false, Bool.false_eq_true]
    linear_combination (2 * f s) * sqrt2_inv_mul_self
  · rw [Bool.not_eq_true] at hb
    rw [hb, upd0_eq_self s j false hb]
    simp only [if_true, if_false, Bool.false_eq_true]
    linear_combination (2 * f s) * sqrt2_inv_mul_self

theorem singleH_comm (j j' : Fin w) (h : j ≠ j') (f : V k n w) :
    singleH j (singleH j' f) = singleH j' (singleH j f) := by
  funext s
  simp only [singleH, reg0_upd0_ne _ _ _ _ h, reg0_upd0_ne _ _ _ _ (Ne.symm h)]
  rw [upd0_comm s j' j false false (Ne.symm h), upd0_comm s j' j false true (Ne.symm h),
    upd0_comm s j' j true false (Ne.symm h), upd0_comm s j' j true true (Ne.symm h)]
  ring

theorem applyHBits_congr (L : List (Fin w)) (f g : V k n w) (s : QState k n w)
    (h : ∀ v, f (withReg0 s v) = g (withReg0 s v)) :
    applyHBits L f s = applyHBits L g s := by
  induction L generalizing s with
  | nil =>
    have h1 := h (s.reg 0)
    rwa [withReg0_self] at h1
  | cons j js ih =>
    simp only [applyHBits, singleH]
    have h0 := ih (upd0 s j false) (fun v => by rw [withReg0_upd0]; exact h v)
    have h1 := ih (upd0 s j true) (fun v => by rw [withReg0_upd0]; exact h v)
    rw [h0, h1]

theorem applyHBits_zero (L : List (Fin w)) (s : QState k n w) :
    applyHBits L (fun _ => (0 : ℂ)) s = 0 := by
  induction L generalizing s with
  | nil => rfl
  | cons j js ih =>
    simp only [applyHBits, singleH, ih]
    ring

theorem applyHBits_eq_zero (L : List (Fin w)) (f : V k n w) (s : QState k n w)
    (h : ∀ v, f (withReg0 s v) = 0) : applyHBits L f s = 0 := by
  rw [applyHBits_congr L f (fun _ => 0) s (fun v => h v), applyHBits_zero]

theorem singleH_applyHBits (j : Fin w) (L : List (Fin w)) (hj : j ∉ L)
    (f : V k n w) : singleH j (applyHBits L f) = applyHBits L (singleH j f) := by
  induction L with
  | nil => rfl
  | cons j' js ih =>
    have hj' : j ≠ j' := fun hh => hj (hh ▸ List.mem_cons_self _ _)
    have hjs : j ∉ js := fun hh => hj (List.mem_cons_of_mem _ hh)
    show singleH j (singleH j' (applyHBits js f)) = singleH j' (applyHBits js (singleH j f))
    rw [singleH_comm j j' hj', ih hjs]

theorem applyHBits_applyHBits (L : List (Fin w)) (hL : L.Nodup) (f : V k n w) :
    applyHBits L (applyHBits L f) = f := by
  induction L with
  | nil => rfl
  | cons j js ih =>
    have hj : j ∉ js := (List.nodup_cons.mp hL).1
    have hjs : js.Nodup := (List.nodup_cons.mp hL).2
    show singleH j (applyHBits js (singleH j (applyHBits js f))) = f
    rw [← singleH_applyHBits j js hj (applyHBits js f), ih hjs]
    funext s
    exact singleH_singleH j f s

theorem hadamard_invol (f : V k n w) : hadamard_reg0 (hadamard_reg0 f) = f :=
  applyHBits_applyHBits (List.finRange w) (List.nodup_finRange w) f

theorem spread_lsb (f : V k n w) (s : QState k n w) (h : lsbTrue s = true) :
    spread f s = f s := by
  rw [spread, if_pos h]

theorem unspread_lsb (f : V k n w) (s : QState k n w) (h : lsbTrue s = true) :
    unspread f s = f s := by
  rw [unspread, if_pos h]

theorem unspread_spread (f : V k n w) : unspread (spread f) = f := by
  funext s
  by_cases hl : lsbTrue s
  · rw [unspread_lsb _ _ hl, spread_lsb _ _ hl]
  · rw [unspread, if_neg hl]
    have hc : ∀ v, spread f (withReg0 (shiftFwdState s) v) =
        hadamard_reg0 (fun t => f (shiftBwdState t)) (withReg0 (shiftFwdState s) v) := by
      intro v
      rw [spread, if_neg (by rw [lsb_withReg0, lsb_shiftFwd]; exact hl)]
    rw [hadamard_reg0, applyHBits_congr _ _ _ _ hc]
    have h2 : applyHBits (List.finRange w)
        (hadamard_reg0 (fun t => f (shiftBwdState t))) (shiftFwdState s) =
        hadamard_reg0 (hadamard_reg0 (fun t => f (shiftBwdState t))) (shiftFwdState s) := rfl
    rw [h2, hadamard_invol, shiftBwd_shiftFwd]

theorem spread_unspread (f : V k n w) : spread (unspread f) = f := by
  funext s
  by_cases hl : lsbTrue s
  · rw [spread_lsb _ _ hl, unspread_lsb _ _ hl]
  · rw [spread, if_neg hl]
    have hc : ∀ v, (fun t => unspread f (shiftBwdState t)) (withReg0 s v) =
        hadamard_reg0 f (withReg0 s v) := by
      intro v
      show unspread f (shiftBwdState (withReg0 s v)) = _
      rw [unspread, if_neg (by rw [lsb_shiftBwd, lsb_withReg0]; exact hl),
        shiftFwd_shiftBwd]
    rw [hadamard_reg0, applyHBits_congr _ _ _ _ hc]
    have h2 : applyHBits (List.finRange w) (hadamard_reg0 f) s =
        hadamard_reg0 (hadamard_reg0 f) s := rfl
    rw [h2, hadamard_invol]

theorem sin_sq_add_cos_sq_complex (x : ℝ) :
    (Real.sin x : ℂ) ^ 2 + (Real.cos x : ℂ) ^ 2 = 1 := by
  norm_cast
  exact_mod_cast Real.sin_sq_add_cos_sq x

theorem cry_cry (cond : QState k n w → Bool)
    (hcond : ∀ s, cond (flipLSBState s) = cond s) (θ : ℝ) (f : V k n w) :
    cry cond (-θ) (cry cond θ f) = f := by
  funext s
  by_cases hc : cond s
  · have hcf : cond (flipLSBState s) = true := by rw [hcond]; exact hc
    have hneg : -θ / 2 = -(θ / 2) := by ring
    have hsc := sin_sq_add_cos_sq_complex (θ / 2)
    by_cases hl : lsbTrue s
    · have hlf : lsbTrue (flipLSBState s) = false := by
        rw [lsb_flip, hl, Bool.not_true]
      simp only [cry, hc, hcf, hl, hlf, if_true, Bool.false_eq_true, if_false,
        flip_flip, hneg, Real.sin_neg, Real.cos_neg, Complex.ofReal_neg]
      linear_combination (f s) * hsc
    · have hl' : lsbTrue s = false := by simpa using hl
      have hlf : lsbTrue (flipLSBState s) = true := by
        rw [lsb_flip, hl', Bool.not_false]
      simp only [cry, hc, hcf, hl', hlf, if_true, Bool.false_eq_true, if_false,
        flip_flip, hneg, Real.sin_neg, Real.cos_neg, Complex.ofReal_neg]
      linear_combination (f s) * hsc
  · have hc' : cond s = false := by simpa using hc
    simp only [cry, hc', Bool.false_eq_true, if_false]

theorem cry_cry' (cond : QState k n w → Bool)
    (hcond : ∀ s, cond (flipLSBState s) = cond s) (θ : ℝ) (f : V k n w) :
    cry cond θ (cry cond (-θ) f) = f := by
  have h := cry_cry cond hcond (-θ) f
  rwa [neg_neg] at h

theorem decGate_incGate (f : V k n w) : decGate (incGate f) = f := by
  funext s
  rw [decGate, incGate, dec_inc]

theorem incGate_decGate (f : V k n w) : incGate (decGate f) = f := by
  funext s
  rw [incGate, decGate, inc_dec]

theorem upperLocal_cry (cond : QState k n w → Bool) (θ : ℝ) :
    UpperLocal (cry cond θ) := by
  intro f g s hfg
  have h1 := hfg s rfl
  have h2 := hfg (flipLSBState s) (upper_flip s)
  simp only [cry]
  split_ifs <;> simp [h1, h2]

theorem upperLocal_spread : UpperLocal (spread (k := k) (n := n) (w := w)) := by
  intro f g s hfg
  rw [spread, spread]
  by_cases hl : lsbTrue s
  · simp [hl, hfg s rfl]
  · simp only [hl, Bool.false_eq_true, if_false]
    exact applyHBits_congr _ _ _ _ (fun v => hfg _ rfl)

theorem upperLocal_unspread : UpperLocal (unspread (k := k) (n := n) (w := w)) := by
  intro f g s hfg
  rw [unspread, unspread]
  by_cases hl : lsbTrue s
  · simp [hl, hfg s rfl]
  · simp only [hl, Bool.false_eq_true, if_false]
    exact applyHBits_congr _ _ _ _ (fun v => hfg _ rfl)

theorem upperLocal_comp (T T' : V k n w → V k n w) (h : UpperLocal T)
    (h' : UpperLocal T') : UpperLocal (fun f => T' (T f)) := by
  intro f g s hfg
  exact h' (T f) (T g) s (fun t ht =>
    h f g t (fun u hu => hfg u (hu.trans ht)))

theorem ctrlUpper_inv (pattern : Nat) (inverted : Bool)
    (B B' : V k n w → V k n w) (hloc : UpperLocal B')
    (hinv : ∀ f, B' (B f) = f) (f : V k n w) :
    ctrlUpper pattern inverted B' (ctrlUpper pattern inverted B f) = f := by
  funext s
  by_cases hcnd : xor (decide (upperVal s = pattern)) inverted = true
  · rw [ctrlUpper, if_pos hcnd]
    have heq : B' (ctrlUpper pattern inverted B f) s = B' (B f) s := by
      apply hloc
      intro t ht
      rw [ctrlUpper, if_pos (by rw [ht]; exact hcnd)]
    rw [heq, hinv]
  · rw [ctrlUpper, if_neg hcnd, ctrlUpper, if_neg hcnd]

theorem cond_upper_flip (pat : Nat) :
    ∀ s : QState k n w, (fun s : QState k n w => decide (upperVal s = pat))
      (flipLSBState s) = (fun s : QState k n w => decide (upperVal s = pat)) s := by
  intro s
  show decide (upperVal (flipLSBState s) = pat) = decide (upperVal s = pat)
  rw [upper_flip]

theorem cond_true_flip :
    ∀ s : QState k n w, (fun _ : QState k n w => true) (flipLSBState s) =
      (fun _ : QState k n w => true) s := fun _ => rfl

theorem body_inv_BB (θ : ℝ) (g : V k n w) :
    cry (fun _ => true) (-θ) (unspread (spread (cry (fun _ => true) θ g))) = g := by
  rw [unspread_spread, cry_cry _ cond_true_flip]

theorem body_inv_BB' (θ : ℝ) (g : V k n w) :
    spread (cry (fun _ => true) θ (cry (fun _ => true) (-θ) (unspread g))) = g := by
  rw [cry_cry' _ cond_true_flip, spread_unspread]

theorem upperLocal_body (θ : ℝ) :
    UpperLocal (fun g : V k n w => spread (cry (fun _ => true) θ g)) :=
  upperLocal_comp _ _ (upperLocal_cry _ _) upperLocal_spread

theorem upperLocal_body' (θ : ℝ) :
    UpperLocal (fun g : V k n w => cry (fun _ => true) (-θ) (unspread g)) :=
  upperLocal_comp _ _ upperLocal_unspread (upperLocal_cry _ _)

theorem psi_prep_inv_psi_prep (even : Bool) (f : V k n w) :
    psi_prep_inv even (psi_prep even f) = f := by
  cases even
  · by_cases hn : n % 2 = 1
    · simp only [psi_prep, psi_prep_inv, Bool.false_eq_true, if_false, hn, if_true]
      rw [unspread_spread, cry_cry _ (cond_upper_flip _), cry_cry _ cond_true_flip]
    · simp only [psi_prep, psi_prep_inv, Bool.false_eq_true, if_false, hn]
      exact ctrlUpper_inv _ _ _ _ (upperLocal_body' _) (body_inv_BB _) f
  · by_cases hn : n % 2 = 0
    · simp only [psi_prep, psi_prep_inv, if_true, hn]
      rw [decGate_incGate, unspread_spread, cry_cry _ (cond_upper_flip _),
        cry_cry _ cond_true_flip, cry_cry' _ (cond_upper_flip _), incGate_decGate]
    · simp only [psi_prep, psi_prep_inv, if_true, hn, Bool.false_eq_true, if_false]
      rw [decGate_incGate,
        ctrlUpper_inv _ _ _ _ (upperLocal_body' _) (body_inv_BB _),
        cry_cry' _ (cond_upper_flip _), incGate_decGate]

theorem psi_prep_psi_prep_inv (even : Bool) (f : V k n w) :
    psi_prep even (psi_prep_inv even f) = f := by
  cases even
  · by_cases hn : n % 2 = 1
    · simp only [psi_prep, psi_prep_inv, Bool.false_eq_true, if_false, hn, if_true]
      rw [cry_cry' _ cond_true_flip, cry_cry' _ (cond_upper_flip _), spread_unspread]
    · simp only [psi_prep, psi_prep_inv, Bool.false_eq_true, if_false, hn]
      exact ctrlUpper_inv _ _ _ _ (upperLocal_body _) (body_inv_BB' _) f
  · by_cases hn : n % 2 = 0
    · simp only [psi_prep, psi_prep_inv, if_true, hn]
      rw [decGate_incGate, cry_cry _ (cond_upper_flip _), cry_cry' _ cond_true_flip,
        cry_cry' _ (cond_upper_flip _), spread_unspread, incGate_decGate]
    · simp only [psi_prep, psi_prep_inv, if_true, hn, Bool.false_eq_true, if_false]
      rw [decGate_incGate, cry_cry _ (cond_upper_flip _),
        ctrlUpper_inv _ _ _ _ (upperLocal_body _) (body_inv_BB' _), incGate_decGate]

theorem vanishes_pairCl {A : QState k n w → Prop} {f : V k n w}
    (hf : Vanishes A f) : Vanishes (pairCl A) f :=
  fun s hs => hf s (fun hA => hs (Or.inl hA))

theorem not_pairCl {A : QState k n w → Prop} {c : Bool} {s : QState k n w}
    (hA : ∀ u, A u → lsbTrue u = c) (hs : lsbTrue s = c) (hns : ¬ A s) :
    ¬ pairCl A s := by
  rintro (h | h)
  · exact hns h
  · have h2 := hA _ h
    rw [lsb_flip, hs] at h2
    cases c <;> simp at h2

theorem vanishes_cry {A : QState k n w → Prop} (cond : QState k n w → Bool)
    (θ : ℝ) {f : V k n w} (hf : Vanishes (pairCl A) f) :
    Vanishes (pairCl A) (cry cond θ f) := by
  intro s hs
  have h0 : f s = 0 := hf s hs
  have h1 : f (flipLSBState s) = 0 := by
    apply hf
    rintro (h | h)
    · exact hs (Or.inr h)
    · rw [flip_flip] at h
      exact hs (Or.inl h)
  rw [cry]
  split_ifs <;> simp [h0, h1]

theorem vanishes_decGate {A : QState k n w → Prop} {f : V k n w}
    (hf : Vanishes A f) : Vanishes (fun u => A (incState u)) (decGate f) :=
  fun u hu => hf _ hu

theorem vanishes_unspread {A : QState k n w → Prop}
    (hA : ∀ s, A s → lsbTrue s = true) {g : V k n w} (hg : Vanishes A g) :
    Vanishes A (unspread g) := by
  intro s hs
  by_cases hl : lsbTrue s
  · rw [unspread_lsb _ _ hl]
    exact hg s hs
  · rw [unspread, if_neg hl]
    apply applyHBits_eq_zero
    intro v
    apply hg
    intro hAv
    have h2 := hA _ hAv
    rw [lsb_withReg0, lsb_shiftFwd] at h2
    exact hl h2

theorem psi_prep_supp (even : Bool) (A : QState k n w → Prop)
    (hA : ∀ s, A s → lsbTrue s = !even) (f : V k n w) (hf : Vanishes A f) :
    ∀ s, lsbTrue s = !even → ¬ A s → psi_prep even f s = 0 := by
  intro s hs hns
  cases even
  · simp only [Bool.not_false] at hA hs
    have hnp : ¬ pairCl A s := not_pairCl hA hs hns
    by_cases hn : n % 2 = 1
    · simp only [psi_prep, Bool.false_eq_true, if_false, hn, if_true]
      rw [spread_lsb _ _ hs]
      exact vanishes_cry _ _ (vanishes_cry _ _ (vanishes_pairCl hf)) s hnp
    · simp only [psi_prep, Bool.false_eq_true, if_false, hn]
      rw [ctrlUpper]
      split_ifs
      · rw [spread_lsb _ _ hs]
        exact vanishes_cry _ _ (vanishes_pairCl hf) s hnp
      · exact hf s hns
  · simp only [Bool.not_true] at hA hs
    have hA' : ∀ u, (fun u => A (incState u)) u → lsbTrue u = true := by
      intro u hu
      have h2 := hA _ hu
      rw [lsb_inc] at h2
      cases hl : lsbTrue u
      · rw [hl] at h2; simp at h2
      · rfl
    have hd : Vanishes (fun u => A (incState u)) (decGate f) := vanishes_decGate hf
    have ht : lsbTrue (decState s) = true := by
      rw [lsb_dec, hs, Bool.not_false]
    have hnt : ¬ pairCl (fun u => A (incState u)) (decState s) := by
      apply not_pairCl hA' ht
      intro h2
      rw [inc_dec] at h2
      exact hns h2
    by_cases hn : n % 2 = 0
    · simp only [psi_prep, if_true, hn]
      rw [incGate]
      rw [spread_lsb _ _ ht]
      exact vanishes_cry _ _ (vanishes_cry _ _ (vanishes_cry _ _
        (vanishes_pairCl hd))) _ hnt
    · simp only [psi_prep, if_true, hn, Bool.false_eq_true, if_false]
      rw [incGate, ctrlUpper]
      split_ifs
      · rw [spread_lsb _ _ ht]
        exact vanishes_cry _ _ (vanishes_cry _ _ (vanishes_pairCl hd)) _ hnt
      · exact vanishes_cry _ _ (vanishes_pairCl hd) _ hnt

theorem psi_prep_inv_supp (even : Bool) (A : QState k n w → Prop)
    (hA : ∀ s, A s → lsbTrue s = !even) (f : V k n w) (hf : Vanishes A f) :
    ∀ s, lsbTrue s = !even → ¬ A s → psi_prep_inv even f s = 0 := by
  intro s hs hns
  cases even
  · simp only [Bool.not_false] at hA hs
    have hnp : ¬ pairCl A s := not_pairCl hA hs hns
    have hu : Vanishes A (unspread f) := vanishes_unspread hA hf
    by_cases hn : n % 2 = 1
    · simp only [psi_prep_inv, Bool.false_eq_true, if_false, hn, if_true]
      exact vanishes_cry _ _ (vanishes_cry _ _ (vanishes_pairCl hu)) s hnp
    · simp only [psi_prep_inv, Bool.false_eq_true, if_false, hn]
      rw [ctrlUpper]
      split_ifs
      · exact vanishes_cry _ _ (vanishes_pairCl hu) s hnp
      · exact hf s hns
  · simp only [Bool.not_true] at hA hs
    have hA' : ∀ u, (fun u => A (incState u)) u → lsbTrue u = true := by
      intro u hu
      have h2 := hA _ hu
      rw [lsb_inc] at h2
      cases hl : lsbTrue u
      · rw [hl] at h2; simp at h2
      · rfl
    have hd : Vanishes (fun u => A (incState u)) (decGate f) := vanishes_decGate hf
    have hud : Vanishes (fun u => A (incState u)) (unspread (decGate f)) :=
      vanishes_unspread hA' hd
    have ht : lsbTrue (decState s) = true := by
      rw [lsb_dec, hs, Bool.not_false]
    have hnt : ¬ pairCl (fun u => A (incState u)) (decState s) := by
      apply not_pairCl hA' ht
      intro h2
      rw [inc_dec] at h2
      exact hns h2
    by_cases hn : n % 2 = 0
    · simp only [psi_prep_inv, if_true, hn]
      rw [incGate]
      exact vanishes_cry _ _ (vanishes_cry _ _ (vanishes_cry _ _
        (vanishes_pairCl hud))) _ hnt
    · simp only [psi_prep_inv, if_true, hn, Bool.false_eq_true, if_false]
      rw [incGate]
      have hY : Vanishes (pairCl (fun u => A (incState u)))
          (ctrlUpper ((n - 1) / 2) true
            (fun g => cry (fun _ => true) (-theta w) (unspread g)) (decGate f)) := by
        intro u hu
        rw [ctrlUpper]
        split_ifs
        · exact vanishes_cry _ _ (vanishes_pairCl hud) u hu
        · exact vanishes_pairCl hd u hu
      exact vanishes_cry _ _ hY _ hnt

theorem linOp_comp (T T' : V k n w → V k n w) (h : LinOp T) (h' : LinOp T') :
    LinOp (fun f => T' (T f)) := by
  intro a p q
  show T' (T (fun s => p s + a * q s)) = _
  rw [h a p q, h' a (T p) (T q)]

theorem linOp_cry (cond : QState k n w → Bool) (θ : ℝ) : LinOp (cry cond θ) := by
  intro a p q
  funext s
  simp only [cry]
  split_ifs <;> ring

theorem linOp_singleH (j : Fin w) : LinOp (singleH (k := k) (n := n) j) := by
  intro a p q
  funext s
  simp only [singleH]
  ring

theorem linOp_applyHBits (L : List (Fin w)) : LinOp (applyHBits (k := k) (n := n) L) := by
  induction L with
  | nil => intro a p q; rfl
  | cons j js ih =>
    intro a p q
    show singleH j (applyHBits js (fun s => p s + a * q s)) = _
    rw [ih a p q, linOp_singleH j a (applyHBits js p) (applyHBits js q)]
    rfl

theorem linOp_hadamard : LinOp (hadamard_reg0 (k := k) (n := n) (w := w)) :=
  linOp_applyHBits (List.finRange w)

theorem linOp_spread : LinOp (spread (k := k) (n := n) (w := w)) := by
  intro a p q
  funext s
  by_cases hl : lsbTrue s
  · simp [spread, hl]
  · simp only [spread, hl, Bool.false_eq_true, if_false]
    exact congrFun (linOp_hadamard a (fun t => p (shiftBwdState t))
      (fun t => q (shiftBwdState t))) s

theorem linOp_unspread : LinOp (unspread (k := k) (n := n) (w := w)) := by
  intro a p q
  funext s
  by_cases hl : lsbTrue s
  · simp [unspread, hl]
  · simp only [unspread, hl, Bool.false_eq_true, if_false]
    exact congrFun (linOp_hadamard a p q) (shiftFwdState s)

theorem linOp_incGate : LinOp (incGate (k := k) (n := n) (w := w)) := by
  intro a p q
  rfl

theorem linOp_decGate : LinOp (decGate (k := k) (n := n) (w := w)) := by
  intro a p q
  rfl

theorem linOp_ctrlUpper (pattern : Nat) (inverted : Bool)
    (B : V k n w → V k n w) (hB : LinOp B) :
    LinOp (ctrlUpper pattern inverted B) := by
  intro a p q
  funext s
  simp only [ctrlUpper]
  split_ifs with hcond
  · exact congrFun (hB a p q) s
  · rfl

theorem linOp_psi_prep (even : Bool) : LinOp (psi_prep (k := k) (n := n) (w := w) even) := by
  cases even
  · by_cases hn : n % 2 = 1
    · intro a p q
      simp only [psi_prep, Bool.false_eq_true, if_false, hn, if_true]
      exact (linOp_comp _ _ (linOp_comp _ _ (linOp_cry _ _) (linOp_cry _ _))
        linOp_spread) a p q
    · intro a p q
      simp only [psi_prep, Bool.false_eq_true, if_false, hn]
      exact (linOp_ctrlUpper _ _ _ (linOp_comp _ _ (linOp_cry _ _) linOp_spread)) a p q
  · by_cases hn : n % 2 = 0
    · intro a p q
      simp only [psi_prep, if_true, hn]
      exact (linOp_comp _ _ (linOp_comp _ _ (linOp_comp _ _ (linOp_comp _ _
        (linOp_comp _ _ linOp_decGate (linOp_cry _ _)) (linOp_cry _ _))
        (linOp_cry _ _)) linOp_spread) linOp_incGate) a p q
    · intro a p q
      simp only [psi_prep, if_true, hn, Bool.false_eq_true, if_false]
      exact (linOp_comp _ _ (linOp_comp _ _ (linOp_comp _ _ linOp_decGate
        (linOp_cry _ _)) (linOp_ctrlUpper _ _ _
          (linOp_comp _ _ (linOp_cry _ _) linOp_spread))) linOp_incGate) a p q

theorem linOp_psi_prep_inv (even : Bool) :
    LinOp (psi_prep_inv (k := k) (n := n) (w := w) even) := by
  cases even
  · by_cases hn : n % 2 = 1
    · intro a p q
      simp only [psi_prep_inv, Bool.false_eq_true, if_false, hn, if_true]
      exact (linOp_comp _ _ (linOp_comp _ _ linOp_unspread (linOp_cry _ _))
        (linOp_cry _ _)) a p q
    · intro a p q
      simp only [psi_prep_inv, Bool.false_eq_true, if_false, hn]
      exact (linOp_ctrlUpper _ _ _ (linOp_comp _ _ linOp_unspread (linOp_cry _ _))) a p q
  · by_cases hn : n % 2 = 0
    · intro a p q
      simp only [psi_prep_inv, if_true, hn]
      exact (linOp_comp _ _ (linOp_comp _ _ (linOp_comp _ _ (linOp_comp _ _
        (linOp_comp _ _ linOp_decGate linOp_unspread) (linOp_cry _ _))
        (linOp_cry _ _)) (linOp_cry _ _)) linOp_incGate) a p q
    · intro a p q
      simp only [psi_prep_inv, if_true, hn, Bool.false_eq_true, if_false]
      exact (linOp_comp _ _ (linOp_comp _ _ (linOp_comp _ _ linOp_decGate
        (linOp_ctrlUpper _ _ _ (linOp_comp _ _ linOp_unspread (linOp_cry _ _))))
        (linOp_cry _ _)) linOp_incGate) a p q

theorem linOp_mcz2 (even : Bool) (rej : QState k n w → Bool) :
    LinOp (mcz2 even rej) := by
  intro a p q
  funext s
  simp only [mcz2]
  split_ifs <;> ring

theorem mcz1_invol (even : Bool) (acc rej : QState k n w → Bool) (f : V k n w) :
    mcz1 even acc rej (mcz1 even acc rej f) = f := by
  funext s
  simp only [mcz1]
  split_ifs <;> simp

theorem mcz2_invol (even : Bool) (rej : QState k n w → Bool) (f : V k n w) :
    mcz2 even rej (mcz2 even rej f) = f := by
  funext s
  simp only [mcz2]
  split_ifs <;> simp

theorem mcz1_expand (even : Bool) (acc rej : QState k n w → Bool) (g : V k n w) :
    mcz1 even acc rej g =
      fun s => g s + (-2 : ℂ) * projOn (S1pred even acc rej) g s := by
  funext s
  simp only [mcz1, projOn]
  split_ifs <;> ring

theorem mcz2_expand (even : Bool) (rej : QState k n w → Bool) (g : V k n w) :
    mcz2 even rej g =
      fun s => g s + (-2 : ℂ) * projOn (F2pred even rej) g s := by
  funext s
  simp only [mcz2, projOn]
  split_ifs <;> ring

theorem projOn_vanishes (A : QState k n w → Prop) [DecidablePred A]
    (g : V k n w) : Vanishes A (projOn A g) := by
  intro s hs
  rw [projOn, if_neg hs]

theorem projOn_congrOn (A : QState k n w → Prop) [DecidablePred A]
    (g h : V k n w) (he : ∀ s, A s → g s = h s) : projOn A g = projOn A h := by
  funext s
  by_cases hs : A s
  · rw [projOn, if_pos hs, projOn, if_pos hs, he s hs]
  · rw [projOn, if_neg hs, projOn, if_neg hs]

theorem mcz2_psi_prep_fix (even : Bool) (acc rej : QState k n w → Bool)
    (p : V k n w) (hp : Vanishes (S1pred even acc rej) p) :
    mcz2 even rej (psi_prep even p) = psi_prep even p := by
  funext s
  rw [mcz2]
  split_ifs with hF
  · have h0 : psi_prep even p s = 0 := by
      apply psi_prep_supp even (S1pred even acc rej) (fun u hu => hu.1) p hp s hF.1
      intro hS
      have h2 := hF.2
      rw [hS.2.2.2] at h2
      exact absurd h2 (by simp)
    rw [h0]
    ring
  · rfl

theorem psi_prep_inv_zero_on_S1 (even : Bool) (acc rej : QState k n w → Bool)
    (q : V k n w) (hq : Vanishes (F2pred even rej) q) :
    ∀ s, S1pred even acc rej s → psi_prep_inv even q s = 0 := by
  intro s hs
  apply psi_prep_inv_supp even (F2pred even rej) (fun u hu => hu.1) q hq s hs.1
  intro hF
  have h2 := hF.2
  rw [hs.2.2.2] at h2
  exact absurd h2 (by simp)

theorem qstep_diffuser_invol (even : Bool) (acc rej : QState k n w → Bool)
    (f : V k n w) :
    qstep_diffuser even acc rej (qstep_diffuser even acc rej f) = f := by
  simp only [qstep_diffuser]
  set g := mcz1 even acc rej (psi_prep_inv even f) with hgdef
  have ha : psi_prep_inv even (mcz2 even rej (psi_prep even g)) =
      fun s => g s + (-2 : ℂ) *
        psi_prep_inv even (projOn (F2pred even rej) (psi_prep even g)) s := by
    rw [mcz2_expand even rej (psi_prep even g)]
    rw [linOp_psi_prep_inv even (-2 : ℂ) (psi_prep even g)
      (projOn (F2pred even rej) (psi_prep even g))]
    rw [psi_prep_inv_psi_prep even g]
  rw [ha]
  rw [mcz1_expand even acc rej (fun s => g s + (-2 : ℂ) *
    psi_prep_inv even (projOn (F2pred even rej) (psi_prep even g)) s)]
  have hb : projOn (S1pred even acc rej) (fun s => g s + (-2 : ℂ) *
      psi_prep_inv even (projOn (F2pred even rej) (psi_prep even g)) s) =
      projOn (S1pred even acc rej) g := by
    apply projOn_congrOn
    intro s hs
    show g s + (-2 : ℂ) *
      psi_prep_inv even (projOn (F2pred even rej) (psi_prep even g)) s = g s
    rw [psi_prep_inv_zero_on_S1 even acc rej _ (projOn_vanishes _ _) s hs]
    ring
  rw [hb]
  rw [linOp_psi_prep even (-2 : ℂ)
    (fun s => g s + (-2 : ℂ) *
      psi_prep_inv even (projOn (F2pred even rej) (psi_prep even g)) s)
    (projOn (S1pred even acc rej) g)]
  rw [linOp_psi_prep even (-2 : ℂ) g
    (psi_prep_inv even (projOn (F2pred even rej) (psi_prep even g)))]
  rw [psi_prep_psi_prep_inv even (projOn (F2pred even rej) (psi_prep even g))]
  rw [linOp_mcz2 even rej (-2 : ℂ)
    (fun s => psi_prep even g s + (-2 : ℂ) *
      projOn (F2pred even rej) (psi_prep even g) s)
    (psi_prep even (projOn (S1pred even acc rej) g))]
  rw [← mcz2_expand even rej (psi_prep even g)]
  rw [mcz2_invol even rej (psi_prep even g)]
  rw [mcz2_psi_prep_fix even acc rej (projOn (S1pred even acc rej) g)
    (projOn_vanishes _ _)]
  rw [← linOp_psi_prep even (-2 : ℂ) g (projOn (S1pred even acc rej) g)]
  rw [← mcz1_expand even acc rej g]
  rw [hgdef]
  rw [mcz1_invol even acc rej (psi_prep_inv even f)]
  rw [psi_prep_psi_prep_inv even f]

end QWalk


/-- C7: for every tree (any depth `n`, any branch width `w`, any height
register of `k + 1` qubits, any accept/reject observables) freshly
initialized in a node basis state via `init_node`, and for either value of
the parity flag `even`, applying `qstep_diffuser(even)` twice returns the
original quantum state (exactly, i.e. with global phase `1`): the diffuser
is an involution.  This instantiates the general operator identity
`qstep_diffuser_invol` (`D_x` squared is the identity on every state). -/
theorem C7_diffuser_involution (k n w : Nat)
    (acc rej : QWalk.QState k n w → Bool) (even : Bool)
    (p : List (Fin w → Bool)) :
    QWalk.qstep_diffuser even acc rej
        (QWalk.qstep_diffuser even acc rej (QWalk.node_vec p)) =
      QWalk.node_vec p :=
  QWalk.qstep_diffuser_invol even acc rej (QWalk.node_vec p)
